import Mathlib

/-!
Shallow embedding of the segmentation data pipeline and focal loss
(src/segmentation/data.py and src/segmentation/loss.py).

Tensors are flattened into lists of per-element values.  Float arithmetic
is modelled over ℚ; the logarithm is an abstract parameter (the claims
settled here are structural and hold for any log function).  The single
source of non-finiteness in the loss (division by the valid-element count)
is made explicit via the type TVal, whose nonfin constructor stands for
any IEEE non-finite value (inf or NaN); multiplication and addition
absorb nonfin, which matches IEEE on every operation the code performs
after a division by zero.
-/

/-- An IEEE-style value: a finite rational, or a non-finite value
(infinity or NaN).  Division by zero yields nonfin; nonfin is absorbing
for the additions and multiplications the loss performs afterwards. -/
inductive TVal where
  | fin : ℚ → TVal
  | nonfin : TVal
deriving DecidableEq

def TVal.add : TVal → TVal → TVal
  | TVal.fin a, TVal.fin b => TVal.fin (a + b)
  | _, _ => TVal.nonfin

def TVal.mul : TVal → TVal → TVal
  | TVal.fin a, TVal.fin b => TVal.fin (a * b)
  | _, _ => TVal.nonfin

/-- Division of two finite values: non-finite exactly when the divisor is 0. -/
def tdiv (a b : ℚ) : TVal := if b = 0 then TVal.nonfin else TVal.fin (a / b)

/-- Sum of a list of values (torch .sum over the flattened tensor). -/
def TVal.listSum (l : List TVal) : TVal := l.foldr TVal.add (TVal.fin 0)

/-- One element of the (output, target, inv_mask) tensors, all of identical
shape (the claims concern the same-shape path, where no interpolation
happens in FocalLoss.forward). -/
structure LossElem where
  out : ℚ
  tgt : ℚ
  m : ℚ
deriving DecidableEq

/-- pt = output * target + (1 - output) * (1 - target)  (loss.py line 28). -/
def ptRaw (e : LossElem) : ℚ := e.out * e.tgt + (1 - e.out) * (1 - e.tgt)

/-- torch.clamp(x, lo, hi). -/
def clampQ (x lo hi : ℚ) : ℚ := min (max x lo) hi

/-- pt clamped to [eps, 1 - eps]  (loss.py line 29). -/
def ptClamped (eps : ℚ) (e : LossElem) : ℚ := clampQ (ptRaw e) eps (1 - eps)

/-- at = alpha * target + (1 - alpha) * (1 - target)  (loss.py line 30). -/
def atW (alpha : ℚ) (e : LossElem) : ℚ := alpha * e.tgt + (1 - alpha) * (1 - e.tgt)

/-- Per-element loss = -at * (1 - pt)^gamma * log(pt)  (loss.py line 31).
The gamma default is the integer 2; rlog abstracts torch.log. -/
def focalElem (rlog : ℚ → ℚ) (alpha eps : ℚ) (gamma : ℕ) (e : LossElem) : ℚ :=
  -(atW alpha e) * (1 - ptClamped eps e) ^ gamma * rlog (ptClamped eps e)

/-- val_mask.sum() where val_mask = 1 - inv_mask  (loss.py lines 32-33). -/
def valSum (xs : List LossElem) : ℚ := (xs.map (fun e => 1 - e.m)).sum

/-- FocalLoss.forward on same-shape inputs (loss.py lines 28-34):
per-element loss is scaled by val_mask / val_mask.sum() and then summed. -/
def focalLoss (rlog : ℚ → ℚ) (alpha eps : ℚ) (gamma : ℕ) (xs : List LossElem) : TVal :=
  TVal.listSum (xs.map (fun e =>
    TVal.mul (TVal.fin (focalElem rlog alpha eps gamma e)) (tdiv (1 - e.m) (valSum xs))))

-- Helper lemmas about TVal sums.

theorem tval_listSum_fin (f : LossElem → ℚ) (xs : List LossElem) :
    TVal.listSum (xs.map (fun e => TVal.fin (f e))) = TVal.fin ((xs.map f).sum) := by
  induction xs with
  | nil => rfl
  | cons a l ih => simp [TVal.listSum, List.map_cons, List.foldr_cons] at ih ⊢
                   rw [ih]; rfl

theorem tval_listSum_nonfin (l : List TVal) (h0 : l ≠ []) (h : ∀ x ∈ l, x = TVal.nonfin) :
    TVal.listSum l = TVal.nonfin := by
  cases l with
  | nil => exact absurd rfl h0
  | cons a t =>
    have ha : a = TVal.nonfin := h a (List.mem_cons_self a t)
    simp [TVal.listSum, List.foldr_cons, ha]
    cases t.foldr TVal.add (TVal.fin 0) <;> rfl

theorem sum_map_div (f : LossElem → ℚ) (c : ℚ) (xs : List LossElem) :
    (xs.map (fun e => f e / c)).sum = (xs.map f).sum / c := by
  induction xs with
  | nil => simp
  | cons a l ih => simp [List.map_cons, List.sum_cons, ih, add_div]

theorem sum_filter_zero_mask (f : LossElem → ℚ) (xs : List LossElem)
    (h : ∀ e ∈ xs, e.m = 0 ∨ e.m = 1) :
    (xs.map (fun e => f e * (1 - e.m))).sum
      = ((xs.filter (fun e => decide (e.m = 0))).map f).sum := by
  induction xs with
  | nil => simp
  | cons a l ih =>
    have ha := h a (List.mem_cons_self a l)
    have hl : ∀ e ∈ l, e.m = 0 ∨ e.m = 1 := fun e he => h e (List.mem_cons_of_mem a he)
    rcases ha with h0 | h1
    · simp [List.map_cons, List.sum_cons, List.filter_cons, h0, ih hl]
    · have : ¬ (a.m = 0) := by rw [h1]; norm_num
      simp [List.map_cons, List.sum_cons, List.filter_cons, h1, this, ih hl]

theorem valSum_eq_countP (xs : List LossElem) (h : ∀ e ∈ xs, e.m = 0 ∨ e.m = 1) :
    valSum xs = (xs.countP (fun e => decide (e.m = 0)) : ℚ) := by
  induction xs with
  | nil => simp [valSum]
  | cons a l ih =>
    have ha := h a (List.mem_cons_self a l)
    have hl : ∀ e ∈ l, e.m = 0 ∨ e.m = 1 := fun e he => h e (List.mem_cons_of_mem a he)
    have ihl := ih hl
    rcases ha with h0 | h1
    · simp [valSum, List.map_cons, List.sum_cons, List.countP_cons, h0] at ihl ⊢
      rw [ihl]; ring
    · have : ¬ (a.m = 0) := by rw [h1]; norm_num
      simp [valSum, List.map_cons, List.sum_cons, List.countP_cons, h1, this] at ihl ⊢
      exact ihl

/-- C1: with inv_mask entries in {0,1} and at least one valid element, the
focal loss is the sum of per-element focal losses over the valid
(inv_mask = 0) elements, divided by the number of valid elements. -/
theorem focal_loss_is_valid_mean (rlog : ℚ → ℚ) (alpha eps : ℚ) (gamma : ℕ)
    (xs : List LossElem)
    (h01 : ∀ e ∈ xs, e.m = 0 ∨ e.m = 1)
    (hex : ∃ e ∈ xs, e.m = 0) :
    focalLoss rlog alpha eps gamma xs
      = TVal.fin (((xs.filter (fun e => decide (e.m = 0))).map
            (focalElem rlog alpha eps gamma)).sum
          / (xs.countP (fun e => decide (e.m = 0)) : ℚ)) := by
  have hcount : 0 < xs.countP (fun e => decide (e.m = 0)) := by
    rcases hex with ⟨e, he, hm⟩
    exact List.countP_pos_iff.mpr ⟨e, he, by simp [hm]⟩
  have hS : valSum xs = (xs.countP (fun e => decide (e.m = 0)) : ℚ) :=
    valSum_eq_countP xs h01
  have hSne : valSum xs ≠ 0 := by
    rw [hS]
    exact_mod_cast Nat.pos_iff_ne_zero.mp hcount
  have hdiv : ∀ e : LossElem,
      tdiv (1 - e.m) (valSum xs) = TVal.fin ((1 - e.m) / valSum xs) := by
    intro e; simp [tdiv, hSne]
  have hmap : xs.map (fun e =>
        TVal.mul (TVal.fin (focalElem rlog alpha eps gamma e)) (tdiv (1 - e.m) (valSum xs)))
      = xs.map (fun e =>
        TVal.fin (focalElem rlog alpha eps gamma e * ((1 - e.m) / valSum xs))) := by
    apply List.map_congr_left
    intro e _
    rw [hdiv e]; rfl
  rw [focalLoss, hmap, tval_listSum_fin]
  congr 1
  have h1 : (xs.map (fun e => focalElem rlog alpha eps gamma e * ((1 - e.m) / valSum xs))).sum
      = (xs.map (fun e => (focalElem rlog alpha eps gamma e * (1 - e.m)) / valSum xs)).sum := by
    congr 1
    apply List.map_congr_left
    intro e _
    ring
  rw [h1, sum_map_div (fun e => focalElem rlog alpha eps gamma e * (1 - e.m)) (valSum xs) xs,
    sum_filter_zero_mask (focalElem rlog alpha eps gamma) xs h01, hS]

/-- Witness for C1 at a concrete input: one element with output 1/2,
target 1, inv_mask 0. -/
theorem focal_loss_is_valid_mean_witness :
    focalLoss (fun _ => 0) (1/4) (1/1000000) 2 [⟨1/2, 1, 0⟩]
      = TVal.fin ((List.map (focalElem (fun _ => 0) (1/4) (1/1000000) 2)
            (([⟨1/2, 1, 0⟩] : List LossElem).filter (fun e => decide (e.m = 0)))).sum
          / (([⟨1/2, 1, 0⟩] : List LossElem).countP (fun e => decide (e.m = 0)) : ℚ)) :=
  focal_loss_is_valid_mean (fun _ => 0) (1/4) (1/1000000) 2 [⟨1/2, 1, 0⟩]
    (by intro e he; simp at he; rw [he]; left; rfl)
    ⟨⟨1/2, 1, 0⟩, by simp, rfl⟩

/-- C8: when every element of a non-empty inv_mask is 1, the valid-count
divisor is zero and the focal loss returns a non-finite value (no explicit
error is raised: the function is total on these inputs). -/
theorem focal_loss_all_invalid_nonfinite (rlog : ℚ → ℚ) (alpha eps : ℚ) (gamma : ℕ)
    (xs : List LossElem)
    (hall : ∀ e ∈ xs, e.m = 1)
    (hne : xs ≠ []) :
    focalLoss rlog alpha eps gamma xs = TVal.nonfin ∧ valSum xs = 0 := by
  have hS : valSum xs = 0 := by
    rw [valSum]
    have : xs.map (fun e => 1 - e.m) = xs.map (fun _ => (0 : ℚ)) := by
      apply List.map_congr_left
      intro e he
      rw [hall e he]; ring
    rw [this]
    simp
  refine ⟨?_, hS⟩
  rw [focalLoss]
  apply tval_listSum_nonfin
  · simp [hne]
  · intro x hx
    rcases List.mem_map.mp hx with ⟨e, _, rfl⟩
    simp [tdiv, hS, TVal.mul]

/-- Witness for C8 at a concrete input: a single element with inv_mask 1. -/
theorem focal_loss_all_invalid_nonfinite_witness :
    focalLoss (fun _ => 0) (1/4) (1/1000000) 2 [⟨1/2, 1, 1⟩] = TVal.nonfin
      ∧ valSum [⟨1/2, 1, 1⟩] = 0 :=
  focal_loss_all_invalid_nonfinite (fun _ => 0) (1/4) (1/1000000) 2 [⟨1/2, 1, 1⟩]
    (by intro e he; simp at he; rw [he]) (by simp)

/-- C9: with alpha = 1/2, the loss for output = p, target = 1 equals the
loss for output = 1-p, target = 0, element-wise and hence as the returned
scalar, for every list of (probability, inv_mask) pairs. -/
theorem focal_loss_symmetry (rlog : ℚ → ℚ) (eps : ℚ) (gamma : ℕ)
    (ps : List (ℚ × ℚ)) :
    focalLoss rlog (1/2) eps gamma (ps.map (fun q => ⟨q.1, 1, q.2⟩))
      = focalLoss rlog (1/2) eps gamma (ps.map (fun q => ⟨1 - q.1, 0, q.2⟩))
    ∧ ∀ p mv : ℚ, focalElem rlog (1/2) eps gamma ⟨p, 1, mv⟩
      = focalElem rlog (1/2) eps gamma ⟨1 - p, 0, mv⟩ := by
  have hpt : ∀ p mv : ℚ, ptRaw ⟨p, 1, mv⟩ = ptRaw ⟨1 - p, 0, mv⟩ := by
    intro p mv; simp only [ptRaw]; ring
  have hat : ∀ p mv : ℚ, atW (1/2) ⟨p, 1, mv⟩ = atW (1/2) ⟨1 - p, 0, mv⟩ := by
    intro p mv; simp only [atW]; ring
  have helem : ∀ p mv : ℚ, focalElem rlog (1/2) eps gamma ⟨p, 1, mv⟩
      = focalElem rlog (1/2) eps gamma ⟨1 - p, 0, mv⟩ := by
    intro p mv
    rw [focalElem, focalElem, ptClamped, ptClamped, hpt p mv, hat p mv]
  refine ⟨?_, helem⟩
  rw [focalLoss, focalLoss]
  have hvs : valSum (ps.map (fun q => ⟨q.1, 1, q.2⟩))
      = valSum (ps.map (fun q => ⟨1 - q.1, 0, q.2⟩)) := by
    rw [valSum, valSum, List.map_map, List.map_map]
    rfl
  congr 1
  rw [List.map_map, List.map_map]
  apply List.map_congr_left
  intro q _
  simp only [Function.comp]
  rw [helem q.1 q.2, hvs]

/-!
SegEncoder.catgory_to_onehot (data.py lines 25-29): channel c (0-based,
for class id c+1) is a float indicator of seg-mask pixels equal to c+1.
The pixel grid is flattened into a list of natural-number class ids.
-/

/-- One-hot expansion of a class-id grid: for each class id 1..numClasses,
a float channel that is 1 exactly where the grid equals that id
(data.py lines 26-29; the source name, typo included, is kept). -/
def catgory_to_onehot (numClasses : ℕ) (catMap : List ℕ) : List (List ℚ) :=
  (List.range numClasses).map (fun c => catMap.map (fun v => if v = c + 1 then (1 : ℚ) else 0))

theorem onehot_entry (N : ℕ) (grid : List ℕ) (c i : ℕ) :
    ((catgory_to_onehot N grid).getD c []).getD i 0
      = if grid.getD i 0 = c + 1 ∧ c < N then (1 : ℚ) else 0 := by
  by_cases hc : c < N
  · have hlen : c < (catgory_to_onehot N grid).length := by
      simp [catgory_to_onehot, hc]
    rw [List.getD_eq_getElem _ _ hlen]
    have hch : (catgory_to_onehot N grid)[c]
        = grid.map (fun v => if v = c + 1 then (1 : ℚ) else 0) := by
      simp [catgory_to_onehot]
    rw [hch]
    by_cases hi : i < grid.length
    · have hmlen : i < (grid.map (fun v => if v = c + 1 then (1 : ℚ) else 0)).length := by
        simpa using hi
      rw [List.getD_eq_getElem _ _ hmlen, List.getElem_map, List.getD_eq_getElem _ _ hi]
      simp [hc]
    · have h1 : (grid.map (fun v => if v = c + 1 then (1 : ℚ) else 0)).length ≤ i := by
        simpa using Nat.le_of_not_lt hi
      rw [List.getD_eq_default _ _ h1, List.getD_eq_default _ _ (Nat.le_of_not_lt hi)]
      simp
  · have hlen : (catgory_to_onehot N grid).length ≤ c := by
      simp [catgory_to_onehot]
      omega
    rw [List.getD_eq_default _ _ hlen]
    simp [hc]

theorem indicator_range_sum (N v : ℕ) :
    ((List.range N).map (fun c => if v = c + 1 then (1 : ℚ) else 0)).sum
      = if 1 ≤ v ∧ v ≤ N then 1 else 0 := by
  induction N with
  | zero =>
    have h0 : ¬ (1 ≤ v ∧ v ≤ 0) := by omega
    rw [List.range_zero, List.map_nil, List.sum_nil, if_neg h0]
  | succ n ih =>
    rw [List.range_succ, List.map_append, List.sum_append, ih]
    simp only [List.map_cons, List.map_nil, List.sum_cons, List.sum_nil, add_zero]
    by_cases h : v = n + 1
    · have h1 : ¬ (1 ≤ v ∧ v ≤ n) := by omega
      have h2 : 1 ≤ v ∧ v ≤ n + 1 := by omega
      simp [h, h1, h2]
    · by_cases h3 : 1 ≤ v ∧ v ≤ n
      · have h4 : 1 ≤ v ∧ v ≤ n + 1 := ⟨h3.1, Nat.le_succ_of_le h3.2⟩
        simp [h, h3, h4]
      · have h5 : ¬ (1 ≤ v ∧ v ≤ n + 1) := by omega
        simp [h, h3, h5]

/-- C4: in the one-hot encoding, channel c is 1 exactly at pixels whose
grid value is c+1 (classes 1..numClasses), so at every pixel at most one
channel is 1 and the sum over the channel axis lies in {0, 1}. -/
theorem onehot_channel_sum_in_01 (N : ℕ) (grid : List ℕ) :
    (∀ c i, ((catgory_to_onehot N grid).getD c []).getD i 0
        = if grid.getD i 0 = c + 1 ∧ c < N then (1 : ℚ) else 0)
    ∧ ∀ i, ((catgory_to_onehot N grid).map (fun ch => ch.getD i 0)).sum
        ∈ ({0, 1} : Set ℚ) := by
  refine ⟨fun c i => onehot_entry N grid c i, fun i => ?_⟩
  have hmm : (catgory_to_onehot N grid).map (fun ch => ch.getD i 0)
      = (List.range N).map (fun c =>
          (grid.map (fun v => if v = c + 1 then (1 : ℚ) else 0)).getD i 0) := by
    rw [catgory_to_onehot, List.map_map]
    rfl
  rw [hmm]
  by_cases hi : i < grid.length
  · have hstep : (List.range N).map (fun c =>
          (grid.map (fun v => if v = c + 1 then (1 : ℚ) else 0)).getD i 0)
        = (List.range N).map (fun c => if grid.getD i 0 = c + 1 then (1 : ℚ) else 0) := by
      apply List.map_congr_left
      intro c _
      have hmlen : i < (grid.map (fun v => if v = c + 1 then (1 : ℚ) else 0)).length := by
        simpa using hi
      rw [List.getD_eq_getElem _ _ hmlen, List.getElem_map, List.getD_eq_getElem _ _ hi]
    rw [hstep, indicator_range_sum]
    by_cases hv : 1 ≤ grid.getD i 0 ∧ grid.getD i 0 ≤ N
    · rw [if_pos hv]; simp
    · rw [if_neg hv]; simp
  · have hstep : (List.range N).map (fun c =>
          (grid.map (fun v => if v = c + 1 then (1 : ℚ) else 0)).getD i 0)
        = (List.range N).map (fun _ => (0 : ℚ)) := by
      apply List.map_congr_left
      intro c _
      have h1 : (grid.map (fun v => if v = c + 1 then (1 : ℚ) else 0)).length ≤ i := by
        simpa using Nat.le_of_not_lt hi
      rw [List.getD_eq_default _ _ h1]
    rw [hstep]
    have : ((List.range N).map (fun _ => (0 : ℚ))).sum = 0 := by
      apply List.sum_eq_zero
      intro x hx
      rcases List.mem_map.mp hx with ⟨c, _, rfl⟩
      rfl
    rw [this]
    simp

/-- C10: a pixel whose grid value lies outside [1, numClasses] (0 or
strictly greater than numClasses, e.g. a wide packed-color id) is encoded
with every one-hot channel equal to 0 - silently background, not
rejected. -/
theorem onehot_out_of_range_all_zero (N : ℕ) (grid : List ℕ) (c i : ℕ)
    (h : grid.getD i 0 < 1 ∨ N < grid.getD i 0) :
    ((catgory_to_onehot N grid).getD c []).getD i 0 = 0 := by
  rw [onehot_entry]
  have hfalse : ¬ (grid.getD i 0 = c + 1 ∧ c < N) := by omega
  rw [if_neg hfalse]

/-- Witness for C10: a 1-pixel grid holding the packed-color id 517 with
3 classes; every channel (here channel 0) is 0 at that pixel. -/
theorem onehot_out_of_range_all_zero_witness :
    (([517] : List ℕ).getD 0 0 < 1 ∨ 3 < ([517] : List ℕ).getD 0 0)
    ∧ ((catgory_to_onehot 3 [517]).getD 0 []).getD 0 0 = 0 :=
  ⟨Or.inr (by decide), onehot_out_of_range_all_zero 3 [517] 0 0 (Or.inr (by decide))⟩

/-!
COCODataset.get_raw_data annotation loop (data.py lines 152-171).
Images are flattened to n pixels; an annotation carries its iscrowd flag,
reported area, category id, and rasterized binary mask (annToMask).  The
seg and loss masks are uint8 tensors; bitwise_not on uint8 is 255 - m, so
line 163 is land l (255 - m) per pixel.
-/

structure Ann where
  iscrowd : Bool
  area : ℚ
  catId : ℕ
  mask : List ℕ
deriving DecidableEq

/-- The invalid-region test of data.py line 162. -/
def excludedAnn (minArea : ℚ) (a : Ann) : Bool :=
  a.iscrowd || decide (a.area < minArea)

/-- Per-pixel loss-mask update, torch.bitwise_and(l, torch.bitwise_not(m))
on uint8 (data.py line 163). -/
def excludeStep (l m : ℕ) : ℕ := Nat.land l (255 - m)

/-- Per-pixel seg-mask update, torch.max(s, m * class_id) (data.py line 166). -/
def segStep (cid s m : ℕ) : ℕ := max s (m * cid)

/-- One iteration of the annotation loop (data.py lines 159-166). -/
def processAnn (minArea : ℚ) (classMap : ℕ → Option ℕ)
    (st : List ℕ × List ℕ) (a : Ann) : List ℕ × List ℕ :=
  if excludedAnn minArea a then
    (st.1, List.zipWith excludeStep st.2 a.mask)
  else
    match classMap a.catId with
    | some cid => (List.zipWith (segStep cid) st.1 a.mask, st.2)
    | none => st

/-- seg_mask and loss_mask as computed by COCODataset.get_raw_data for an
n-pixel image: seg starts all-0, loss all-1 (data.py lines 157-166). -/
def cocoMasks (minArea : ℚ) (classMap : ℕ → Option ℕ) (n : ℕ)
    (anns : List Ann) : List ℕ × List ℕ :=
  anns.foldl (processAnn minArea classMap) (List.replicate n 0, List.replicate n 1)

/-- An annotation that reaches the seg-mask branch: non-crowd, area at or
above threshold, category present in the class map. -/
def qualifiesAnn (minArea : ℚ) (classMap : ℕ → Option ℕ) (a : Ann) : Bool :=
  !(excludedAnn minArea a) && (classMap a.catId).isSome

def mappedId (classMap : ℕ → Option ℕ) (a : Ann) : ℕ := (classMap a.catId).getD 0

/-- Maximum mapped class id over qualifying annotations whose mask covers
pixel i (0 when none). -/
def pixelMaxAt (minArea : ℚ) (classMap : ℕ → Option ℕ)
    (anns : List Ann) (i : ℕ) : ℕ :=
  ((anns.filter (fun a => qualifiesAnn minArea classMap a && (a.mask.getD i 0 == 1))).map
    (mappedId classMap)).foldr max 0

theorem zipWith_getD (f : ℕ → ℕ → ℕ) (as bs : List ℕ) (i : ℕ)
    (ha : i < as.length) (hb : i < bs.length) :
    (List.zipWith f as bs).getD i 0 = f (as.getD i 0) (bs.getD i 0) := by
  induction as generalizing bs i with
  | nil => simp at ha
  | cons a as ih =>
    cases bs with
    | nil => simp at hb
    | cons b bs =>
      cases i with
      | zero => rfl
      | succ j =>
        simp only [List.zipWith_cons_cons, List.getD_cons_succ]
        exact ih bs j (by simpa using ha) (by simpa using hb)

theorem getD_replicate_lt (n i v : ℕ) (hi : i < n) :
    (List.replicate n v).getD i 0 = v := by
  rw [List.getD_eq_getElem _ _ (by simpa using hi)]
  exact List.getElem_replicate v (by simpa using hi)

theorem pixelMaxAt_cons (minArea : ℚ) (classMap : ℕ → Option ℕ)
    (a : Ann) (anns : List Ann) (i : ℕ) :
    pixelMaxAt minArea classMap (a :: anns) i
      = if qualifiesAnn minArea classMap a && (a.mask.getD i 0 == 1)
        then max (mappedId classMap a) (pixelMaxAt minArea classMap anns i)
        else pixelMaxAt minArea classMap anns i := by
  rw [pixelMaxAt, List.filter_cons]
  by_cases h : (qualifiesAnn minArea classMap a && (a.mask.getD i 0 == 1)) = true
  · rw [if_pos h, if_pos h, List.map_cons, List.foldr_cons]
    rfl
  · rw [if_neg h, if_neg h]
    rfl

theorem mask_value_le_one (n i : ℕ) (a : Ann) (hi : i < n)
    (hlen : a.mask.length = n) (hv : ∀ v ∈ a.mask, v ≤ 1) :
    a.mask.getD i 0 ≤ 1 := by
  have hilt : i < a.mask.length := by omega
  rw [List.getD_eq_getElem _ _ hilt]
  exact hv _ (List.getElem_mem hilt)

theorem seg_fold_char (minArea : ℚ) (classMap : ℕ → Option ℕ) (n i : ℕ)
    (hi : i < n) (anns : List Ann) :
    ∀ (s l : List ℕ), s.length = n → l.length = n →
    (∀ a ∈ anns, a.mask.length = n ∧ ∀ v ∈ a.mask, v ≤ 1) →
    ((anns.foldl (processAnn minArea classMap) (s, l)).1).getD i 0
      = max (s.getD i 0) (pixelMaxAt minArea classMap anns i) := by
  induction anns with
  | nil =>
    intro s l hs hl hm
    rw [List.foldl_nil, pixelMaxAt]
    simp
  | cons a anns ih =>
    intro s l hs hl hm
    have hma := hm a (List.mem_cons_self a anns)
    have hmrest : ∀ b ∈ anns, b.mask.length = n ∧ ∀ v ∈ b.mask, v ≤ 1 :=
      fun b hb => hm b (List.mem_cons_of_mem a hb)
    rw [List.foldl_cons, processAnn, pixelMaxAt_cons]
    by_cases hex : excludedAnn minArea a = true
    · rw [if_pos hex]
      have hq : (qualifiesAnn minArea classMap a && (a.mask.getD i 0 == 1)) = false := by
        simp [qualifiesAnn, hex]
      rw [hq]
      simp only [Bool.false_eq_true, if_false]
      exact ih s (List.zipWith excludeStep l a.mask)
        hs (by rw [List.length_zipWith, hl, hma.1]; omega) hmrest
    · rw [if_neg hex]
      cases hcm : classMap a.catId with
      | none =>
        have hq : (qualifiesAnn minArea classMap a && (a.mask.getD i 0 == 1)) = false := by
          simp [qualifiesAnn, hcm]
        rw [hq]
        simp only [Bool.false_eq_true, if_false]
        exact ih s l hs hl hmrest
      | some cid =>
        have hslen : (List.zipWith (segStep cid) s a.mask).length = n := by
          rw [List.length_zipWith, hs, hma.1]; omega
        rw [ih (List.zipWith (segStep cid) s a.mask) l hslen hl hmrest]
        rw [zipWith_getD (segStep cid) s a.mask i (by omega) (by rw [hma.1]; omega)]
        have hmv : a.mask.getD i 0 ≤ 1 := mask_value_le_one n i a hi hma.1 hma.2
        have hq : qualifiesAnn minArea classMap a = true := by
          simp [qualifiesAnn, hex, hcm]
        have hmid : mappedId classMap a = cid := by simp [mappedId, hcm]
        rcases Nat.le_one_iff_eq_zero_or_eq_one.mp hmv with h0 | h1
        · have hcond : (qualifiesAnn minArea classMap a && (a.mask.getD i 0 == 1)) = false := by
            rw [h0]; simp
          rw [hcond]
          simp only [Bool.false_eq_true, if_false, segStep, h0, Nat.zero_mul, Nat.max_zero]
        · have hcond : (qualifiesAnn minArea classMap a && (a.mask.getD i 0 == 1)) = true := by
            rw [h1]; simp [hq]
          rw [hcond, if_pos rfl, segStep, h1, Nat.one_mul, hmid, Nat.max_assoc]

theorem foldr_max_perm (l1 l2 : List ℕ) (h : l1.Perm l2) :
    l1.foldr max 0 = l2.foldr max 0 := by
  induction h with
  | nil => rfl
  | cons x _ ih => rw [List.foldr_cons, List.foldr_cons, ih]
  | swap x y l =>
    rw [List.foldr_cons, List.foldr_cons, List.foldr_cons, List.foldr_cons]
    rw [Nat.max_left_comm]
  | trans _ _ ih1 ih2 => rw [ih1, ih2]

theorem pixelMaxAt_perm (minArea : ℚ) (classMap : ℕ → Option ℕ)
    (anns anns2 : List Ann) (i : ℕ) (h : anns.Perm anns2) :
    pixelMaxAt minArea classMap anns i = pixelMaxAt minArea classMap anns2 i := by
  rw [pixelMaxAt, pixelMaxAt]
  exact foldr_max_perm _ _
    (((h.filter (fun a => qualifiesAnn minArea classMap a && (a.mask.getD i 0 == 1)))).map
      (mappedId classMap))

/-- C2: in COCODataset.get_raw_data, each seg_mask pixel is the maximum
mapped class id over all non-crowd, at-or-above-threshold annotations in
the class map whose rasterized mask covers the pixel (0 if none), and the
value is unchanged under any reordering of the annotation list, so a pixel
holding a higher class id is never overwritten by a lower one. -/
theorem coco_seg_mask_is_pixel_max (minArea : ℚ) (classMap : ℕ → Option ℕ)
    (anns anns2 : List Ann) (n i : ℕ)
    (hperm : anns.Perm anns2) (hi : i < n)
    (hm : ∀ a ∈ anns, a.mask.length = n ∧ ∀ v ∈ a.mask, v ≤ 1) :
    (cocoMasks minArea classMap n anns).1.getD i 0
        = pixelMaxAt minArea classMap anns i
    ∧ (cocoMasks minArea classMap n anns2).1.getD i 0
        = pixelMaxAt minArea classMap anns i := by
  have hm2 : ∀ a ∈ anns2, a.mask.length = n ∧ ∀ v ∈ a.mask, v ≤ 1 :=
    fun a ha => hm a (hperm.mem_iff.mpr ha)
  have h1 := seg_fold_char minArea classMap n i hi anns
    (List.replicate n 0) (List.replicate n 1)
    (List.length_replicate n 0) (List.length_replicate n 1) hm
  have h2 := seg_fold_char minArea classMap n i hi anns2
    (List.replicate n 0) (List.replicate n 1)
    (List.length_replicate n 0) (List.length_replicate n 1) hm2
  rw [getD_replicate_lt n i 0 hi] at h1 h2
  constructor
  · rw [cocoMasks, h1, Nat.zero_max]
  · rw [cocoMasks, h2, Nat.zero_max, pixelMaxAt_perm minArea classMap anns anns2 i hperm]

/-- Witness for C2: two overlapping one-pixel annotations mapped to class
ids 2 and 5; the pixel resolves to 5 in both processing orders. -/
theorem coco_seg_mask_is_pixel_max_witness :
    (cocoMasks 0 (fun c => if c = 1 then some 2 else if c = 2 then some 5 else none) 1
        [⟨false, 1, 1, [1]⟩, ⟨false, 1, 2, [1]⟩]).1.getD 0 0
      = pixelMaxAt 0 (fun c => if c = 1 then some 2 else if c = 2 then some 5 else none)
          [⟨false, 1, 1, [1]⟩, ⟨false, 1, 2, [1]⟩] 0
    ∧ (cocoMasks 0 (fun c => if c = 1 then some 2 else if c = 2 then some 5 else none) 1
        [⟨false, 1, 2, [1]⟩, ⟨false, 1, 1, [1]⟩]).1.getD 0 0
      = pixelMaxAt 0 (fun c => if c = 1 then some 2 else if c = 2 then some 5 else none)
          [⟨false, 1, 1, [1]⟩, ⟨false, 1, 2, [1]⟩] 0 :=
  coco_seg_mask_is_pixel_max 0
    (fun c => if c = 1 then some 2 else if c = 2 then some 5 else none)
    [⟨false, 1, 1, [1]⟩, ⟨false, 1, 2, [1]⟩]
    [⟨false, 1, 2, [1]⟩, ⟨false, 1, 1, [1]⟩]
    1 0 (by decide) (by decide) (by decide)

theorem any_perm (p : Ann → Bool) (l1 l2 : List Ann) (h : l1.Perm l2) :
    l1.any p = l2.any p := by
  induction h with
  | nil => rfl
  | cons x _ ih => rw [List.any_cons, List.any_cons, ih]
  | swap x y l =>
    rw [List.any_cons, List.any_cons, List.any_cons, List.any_cons]
    rw [Bool.or_left_comm]
  | trans _ _ ih1 ih2 => rw [ih1, ih2]

theorem loss_fold_char (minArea : ℚ) (classMap : ℕ → Option ℕ) (n i : ℕ)
    (hi : i < n) (anns : List Ann) :
    ∀ (s l : List ℕ), s.length = n → l.length = n → l.getD i 0 ≤ 1 →
    (∀ a ∈ anns, a.mask.length = n ∧ ∀ v ∈ a.mask, v ≤ 1) →
    ((anns.foldl (processAnn minArea classMap) (s, l)).2).getD i 0
      = if anns.any (fun a => excludedAnn minArea a && (a.mask.getD i 0 == 1))
        then 0 else l.getD i 0 := by
  induction anns with
  | nil =>
    intro s l hs hl hli hm
    rw [List.foldl_nil]
    simp
  | cons a anns ih =>
    intro s l hs hl hli hm
    have hma := hm a (List.mem_cons_self a anns)
    have hmrest : ∀ b ∈ anns, b.mask.length = n ∧ ∀ v ∈ b.mask, v ≤ 1 :=
      fun b hb => hm b (List.mem_cons_of_mem a hb)
    have hmv : a.mask.getD i 0 ≤ 1 := mask_value_le_one n i a hi hma.1 hma.2
    rw [List.foldl_cons, processAnn, List.any_cons]
    by_cases hex : excludedAnn minArea a = true
    · rw [if_pos hex]
      have hllen : (List.zipWith excludeStep l a.mask).length = n := by
        rw [List.length_zipWith, hl, hma.1]; omega
      have hzw : (List.zipWith excludeStep l a.mask).getD i 0
          = excludeStep (l.getD i 0) (a.mask.getD i 0) :=
        zipWith_getD excludeStep l a.mask i (by omega) (by rw [hma.1]; omega)
      rcases Nat.le_one_iff_eq_zero_or_eq_one.mp hmv with hm0 | hm1
      · have hstep : excludeStep (l.getD i 0) (a.mask.getD i 0) = l.getD i 0 := by
          rcases Nat.le_one_iff_eq_zero_or_eq_one.mp hli with hl0 | hl1
          · rw [hm0, hl0]; rfl
          · rw [hm0, hl1]; rfl
        rw [ih s (List.zipWith excludeStep l a.mask) hs hllen
          (by rw [hzw, hstep]; exact hli) hmrest, hzw, hstep]
        have hcov : ((a.mask.getD i 0 == 1) : Bool) = false := by
          rw [hm0]; rfl
        rw [hcov, Bool.and_false, Bool.false_or]
      · have hstep : excludeStep (l.getD i 0) (a.mask.getD i 0) = 0 := by
          rcases Nat.le_one_iff_eq_zero_or_eq_one.mp hli with hl0 | hl1
          · rw [hm1, hl0]; rfl
          · rw [hm1, hl1]; rfl
        rw [ih s (List.zipWith excludeStep l a.mask) hs hllen
          (by rw [hzw, hstep]; exact Nat.zero_le 1) hmrest, hzw, hstep]
        have hcov : ((a.mask.getD i 0 == 1) : Bool) = true := by
          rw [hm1]; rfl
        rw [hcov, hex, Bool.true_and, Bool.true_or, if_pos rfl]
        by_cases hrest : (anns.any (fun a => excludedAnn minArea a && (a.mask.getD i 0 == 1))) = true
        · rw [if_pos hrest]
        · rw [if_neg hrest]
    · rw [if_neg hex]
      have hexf : excludedAnn minArea a = false := Bool.not_eq_true _ ▸ (by simpa using hex)
      have hskip : (excludedAnn minArea a && (a.mask.getD i 0 == 1)) = false := by
        rw [hexf, Bool.false_and]
      rw [hskip, Bool.false_or]
      cases hcm : classMap a.catId with
      | none => exact ih s l hs hl hli hmrest
      | some cid =>
        exact ih (List.zipWith (segStep cid) s a.mask) l
          (by rw [List.length_zipWith, hs, hma.1]; omega) hl hli hmrest

/-- C6: in COCODataset.get_raw_data, a loss_mask pixel is 0 exactly when
some crowd or below-minimum-area annotation covers it, and the resulting
loss_mask pixel is unchanged under any reordering of the annotation list
(in particular, whether valid-class annotations come before or after the
exclusions). -/
theorem coco_loss_mask_zero_iff_excluded (minArea : ℚ) (classMap : ℕ → Option ℕ)
    (anns anns2 : List Ann) (n i : ℕ)
    (hperm : anns.Perm anns2) (hi : i < n)
    (hm : ∀ a ∈ anns, a.mask.length = n ∧ ∀ v ∈ a.mask, v ≤ 1) :
    ((cocoMasks minArea classMap n anns).2.getD i 0 = 0
      ↔ anns.any (fun a => excludedAnn minArea a && (a.mask.getD i 0 == 1)) = true)
    ∧ (cocoMasks minArea classMap n anns2).2.getD i 0
      = (cocoMasks minArea classMap n anns).2.getD i 0 := by
  have hm2 : ∀ a ∈ anns2, a.mask.length = n ∧ ∀ v ∈ a.mask, v ≤ 1 :=
    fun a ha => hm a (hperm.mem_iff.mpr ha)
  have hrep1 : (List.replicate n 1).getD i 0 ≤ 1 := by
    rw [getD_replicate_lt n i 1 hi]
  have h1 := loss_fold_char minArea classMap n i hi anns
    (List.replicate n 0) (List.replicate n 1)
    (List.length_replicate n 0) (List.length_replicate n 1) hrep1 hm
  have h2 := loss_fold_char minArea classMap n i hi anns2
    (List.replicate n 0) (List.replicate n 1)
    (List.length_replicate n 0) (List.length_replicate n 1) hrep1 hm2
  rw [getD_replicate_lt n i 1 hi] at h1 h2
  have hany : anns2.any (fun a => excludedAnn minArea a && (a.mask.getD i 0 == 1))
      = anns.any (fun a => excludedAnn minArea a && (a.mask.getD i 0 == 1)) :=
    any_perm _ _ _ hperm.symm
  constructor
  · rw [cocoMasks, h1]
    by_cases hc : (anns.any (fun a => excludedAnn minArea a && (a.mask.getD i 0 == 1))) = true
    · rw [if_pos hc]
      exact ⟨fun _ => hc, fun _ => rfl⟩
    · rw [if_neg hc]
      constructor
      · intro h10
        exact absurd h10 one_ne_zero
      · intro hc2
        exact absurd hc2 hc
  · rw [cocoMasks, cocoMasks, h1, h2, hany]

/-- Witness for C6: a crowd annotation and a valid-class annotation over
the same single pixel, in both orders; the pixel is excluded (0) and the
iff characterization holds. -/
theorem coco_loss_mask_zero_iff_excluded_witness :
    ((cocoMasks 0 (fun c => if c = 1 then some 2 else none) 1
        [⟨true, 1, 5, [1]⟩, ⟨false, 1, 1, [1]⟩]).2.getD 0 0 = 0
      ↔ ([⟨true, 1, 5, [1]⟩, ⟨false, 1, 1, [1]⟩] : List Ann).any
          (fun a => excludedAnn 0 a && (a.mask.getD 0 0 == 1)) = true)
    ∧ (cocoMasks 0 (fun c => if c = 1 then some 2 else none) 1
        [⟨false, 1, 1, [1]⟩, ⟨true, 1, 5, [1]⟩]).2.getD 0 0
      = (cocoMasks 0 (fun c => if c = 1 then some 2 else none) 1
        [⟨true, 1, 5, [1]⟩, ⟨false, 1, 1, [1]⟩]).2.getD 0 0 :=
  coco_loss_mask_zero_iff_excluded 0 (fun c => if c = 1 then some 2 else none)
    [⟨true, 1, 5, [1]⟩, ⟨false, 1, 1, [1]⟩]
    [⟨false, 1, 1, [1]⟩, ⟨true, 1, 5, [1]⟩]
    1 0 (by decide) (by decide) (by decide)

/-!
Keyed lookup in get_raw_data.  All three adapters index a Python list
built at construction with the integer key (data.py lines 154, 267-268,
368-369): Python list indexing admits negative keys in [-len, -1] (they
index from the end) and raises IndexError otherwise, modelled as none.
The per-image loading is abstracted: the per-image annotation lists,
pixel counts and annotation images are inputs.
-/

/-- Python list indexing: xs[key] with IndexError as none. -/
def pyListGet {α : Type} (xs : List α) (key : ℤ) : Option α :=
  let k : ℤ := if key < 0 then key + xs.length else key
  if 0 ≤ k then xs[k.toNat]? else none

/-- COCODataset.get_raw_data (data.py lines 152-171): resolve the key-th
image id, then run the annotation fold on the annotations of that image. -/
def cocoGetRawData (minArea : ℚ) (classMap : ℕ → Option ℕ) (npix : ℕ → ℕ)
    (annsOf : ℕ → List Ann) (imgIds : List ℕ) (key : ℤ) :
    Option (List ℕ × List ℕ) :=
  (pyListGet imgIds key).map
    (fun imgId => cocoMasks minArea classMap (npix imgId) (annsOf imgId))

/-- ADE20KDataset._generate_class_map inner loop (data.py lines 285-292):
walk the class-name rows with a running row index i (0-based) and dense
id counter cur (starting at 1); allow-listed rows get entry (i+1, cur). -/
def mapDictAux {α : Type} (classes : α → Bool) : List α → ℕ → ℕ → List (ℕ × ℕ)
  | [], _, _ => []
  | nm :: rest, i, cur =>
    if classes nm then (i + 1, cur) :: mapDictAux classes rest (i + 1) (cur + 1)
    else mapDictAux classes rest (i + 1) cur

def mapDict {α : Type} (classes : α → Bool) (names : List α) : List (ℕ × ℕ) :=
  mapDictAux classes names 0 1

/-- The vectorized map_func (data.py lines 293-299): dictionary hit maps to
the dense id, everything else to 0. -/
def adeClassMap {α : Type} (classes : α → Bool) (names : List α) (elem : ℕ) : ℕ :=
  ((mapDict classes names).lookup elem).getD 0

/-- ADE20KDataset.get_raw_data (data.py lines 258-274): the selected
 annotation image is remapped elementwise through the class map, and the
loss mask is all-1 (torch.ones_like). -/
def adeGetRawData {α : Type} (classes : α → Bool) (names : List α)
    (segImgs : List (List ℕ)) (key : ℤ) : Option (List ℕ × List ℕ) :=
  (pyListGet segImgs key).map
    (fun g => (g.map (adeClassMap classes names), g.map (fun _ => 1)))

/-- Packed-color decode of one pixel: (channel0 // 10) * 256 + channel1
(data.py lines 372-375). -/
def decodePixel (px : ℕ × ℕ) : ℕ := px.1 / 10 * 256 + px.2

/-- FineGrainedADE20KDataset.get_raw_data (data.py lines 359-380): the
key-th annotation image is decoded pixelwise; the configured class set is
carried by the dataset but unused (the remap line is commented out). -/
def fineGetRawData (classes : ℕ → Bool) (segImgs : List (List (ℕ × ℕ)))
    (key : ℤ) : Option (List ℕ) :=
  (pyListGet segImgs key).map (fun g => g.map decodePixel)

/-- C3 counterexample: key -1 is outside [0, length) in a length-1 dataset,
yet all three adapters return a sample for it (Python negative indexing). -/
theorem get_raw_data_negative_key_returns_sample :
    ¬ ((0 : ℤ) ≤ -1 ∧ (-1 : ℤ) < 1)
    ∧ (cocoGetRawData 0 (fun _ => none) (fun _ => 1) (fun _ => []) [7] (-1)).isSome = true
    ∧ (adeGetRawData (fun _ : ℕ => false) ([] : List ℕ) [[0]] (-1)).isSome = true
    ∧ (fineGetRawData (fun _ => false) [[(0, 0)]] (-1)).isSome = true := by
  refine ⟨by omega, by decide, by decide, by decide⟩

theorem isSome_map {α β : Type} (f : α → β) (o : Option α) :
    (o.map f).isSome = o.isSome := by
  cases o <;> rfl

theorem pyListGet_isSome {α : Type} (xs : List α) (key : ℤ) :
    (pyListGet xs key).isSome = true
      ↔ -(xs.length : ℤ) ≤ key ∧ key < xs.length := by
  rw [pyListGet]
  by_cases hneg : key < 0
  · simp only [hneg, if_true]
    by_cases hk : (0 : ℤ) ≤ key + xs.length
    · rw [if_pos hk]
      have hlt : (key + (xs.length : ℤ)).toNat < xs.length := by omega
      rw [List.getElem?_eq_getElem hlt]
      simp only [Option.isSome_some]
      constructor
      · intro _
        constructor <;> omega
      · intro _
        trivial
    · rw [if_neg hk]
      simp only [Option.isSome_none]
      constructor
      · intro h
        exact absurd h (by decide)
      · intro h
        exfalso
        omega
  · simp only [hneg, if_false]
    have h0 : (0 : ℤ) ≤ key := by omega
    rw [if_pos h0]
    by_cases hlt : key.toNat < xs.length
    · rw [List.getElem?_eq_getElem hlt]
      simp only [Option.isSome_some]
      constructor
      · intro _
        constructor <;> omega
      · intro _
        trivial
    · rw [List.getElem?_eq_none (by omega)]
      simp only [Option.isSome_none]
      constructor
      · intro h
        exact absurd h (by decide)
      · intro h
        exfalso
        omega

/-- C3 amended: get_raw_data(key) fails with IndexError exactly when key is
outside [-length, length); negative keys in [-length, -1] index from the
end and do return a sample, so failure is not "outside [0, length)". -/
theorem get_raw_data_key_in_range_iff {α : Type} (minArea : ℚ)
    (classMap : ℕ → Option ℕ) (npix : ℕ → ℕ) (annsOf : ℕ → List Ann)
    (imgIds : List ℕ) (classes : α → Bool) (names : List α)
    (segImgs : List (List ℕ)) (fclasses : ℕ → Bool)
    (fsegImgs : List (List (ℕ × ℕ))) (key1 key2 key3 : ℤ) :
    ((cocoGetRawData minArea classMap npix annsOf imgIds key1).isSome = true
      ↔ -(imgIds.length : ℤ) ≤ key1 ∧ key1 < imgIds.length)
    ∧ ((adeGetRawData classes names segImgs key2).isSome = true
      ↔ -(segImgs.length : ℤ) ≤ key2 ∧ key2 < segImgs.length)
    ∧ ((fineGetRawData fclasses fsegImgs key3).isSome = true
      ↔ -(fsegImgs.length : ℤ) ≤ key3 ∧ key3 < fsegImgs.length) := by
  refine ⟨?_, ?_, ?_⟩
  · rw [cocoGetRawData, isSome_map]
    exact pyListGet_isSome imgIds key1
  · rw [adeGetRawData, isSome_map]
    exact pyListGet_isSome segImgs key2
  · rw [fineGetRawData, isSome_map]
    exact pyListGet_isSome fsegImgs key3

theorem getD_map_decodePixel (g : List (ℕ × ℕ)) (i : ℕ) :
    (g.map decodePixel).getD i 0 = decodePixel (g.getD i (0, 0)) := by
  by_cases hi : i < g.length
  · rw [List.getD_eq_getElem _ _ (by simpa using hi), List.getElem_map,
      List.getD_eq_getElem _ _ hi]
  · rw [List.getD_eq_default _ _ (by simpa using Nat.le_of_not_lt hi),
      List.getD_eq_default _ _ (Nat.le_of_not_lt hi)]
    rfl

/-- C5: every pixel of the packed-color adapter seg_mask decodes as
(channel0 // 10) * 256 + channel1; channel0 = 20, channel1 = 5 gives 517;
and the result is independent of the configured class allow-list (no
class-map remapping is applied in this variant). -/
theorem fine_grained_packed_decode (classes classes2 : ℕ → Bool)
    (segImgs : List (List (ℕ × ℕ))) (key : ℤ) (i : ℕ) :
    (((fineGetRawData classes segImgs key).getD []).getD i 0
      = (((pyListGet segImgs key).getD []).getD i (0, 0)).1 / 10 * 256
        + (((pyListGet segImgs key).getD []).getD i (0, 0)).2)
    ∧ decodePixel (20, 5) = 517
    ∧ fineGetRawData classes segImgs key = fineGetRawData classes2 segImgs key := by
  refine ⟨?_, by decide, rfl⟩
  rw [fineGetRawData]
  cases hp : pyListGet segImgs key with
  | none =>
    show (([] : List ℕ).getD i 0)
      = ((([] : List (ℕ × ℕ)).getD i (0, 0)).1 / 10 * 256
        + (([] : List (ℕ × ℕ)).getD i (0, 0)).2)
    rw [List.getD_nil, List.getD_nil]
    rfl
  | some g =>
    show (g.map decodePixel).getD i 0
      = (g.getD i (0, 0)).1 / 10 * 256 + (g.getD i (0, 0)).2
    rw [getD_map_decodePixel]
    rfl

theorem lookup_cons_eq_if {β : Type} (k a : ℕ) (b : β) (es : List (ℕ × β)) :
    List.lookup k ((a, b) :: es) = if k == a then some b else List.lookup k es := by
  cases h : (k == a) <;> simp [List.lookup, h]

theorem mapDictAux_lookup_le {α : Type} (classes : α → Bool) (names : List α) :
    ∀ (i cur k : ℕ), k ≤ i → (mapDictAux classes names i cur).lookup k = none := by
  induction names with
  | nil =>
    intro i cur k _
    rfl
  | cons nm rest ih =>
    intro i cur k hk
    by_cases hc : classes nm = true
    · simp only [mapDictAux, hc, if_true]
      rw [lookup_cons_eq_if]
      have hne : (k == i + 1) = false := by
        simp only [beq_eq_false_iff_ne, ne_eq]
        omega
      rw [hne, if_neg (by simp)]
      exact ih (i + 1) (cur + 1) k (by omega)
    · simp only [mapDictAux, hc, if_false]
      exact ih (i + 1) cur k (by omega)

theorem mapDictAux_lookup_add {α : Type} (classes : α → Bool) (names : List α) :
    ∀ (i cur j : ℕ),
    (mapDictAux classes names i cur).lookup (i + 1 + j)
      = match names[j]? with
        | some nm =>
          if classes nm = true
          then some (cur + (names.take j).countP classes)
          else none
        | none => none := by
  induction names with
  | nil =>
    intro i cur j
    rfl
  | cons nm rest ih =>
    intro i cur j
    have hdef : mapDictAux classes (nm :: rest) i cur
        = if classes nm then (i + 1, cur) :: mapDictAux classes rest (i + 1) (cur + 1)
          else mapDictAux classes rest (i + 1) cur := rfl
    by_cases hc : classes nm = true
    · rw [hdef, if_pos hc, lookup_cons_eq_if]
      cases j with
      | zero =>
        have heq : (i + 1 + 0 == i + 1) = true := by simp
        rw [heq, if_pos rfl, List.getElem?_cons_zero]
        show some cur
          = if classes nm = true
            then some (cur + ((nm :: rest).take 0).countP classes)
            else none
        rw [if_pos hc]
        rfl
      | succ j2 =>
        have hne : (i + 1 + (j2 + 1) == i + 1) = false := by
          simp only [beq_eq_false_iff_ne, ne_eq]
          omega
        rw [hne, if_neg (by simp)]
        have harg : i + 1 + (j2 + 1) = (i + 1) + 1 + j2 := by omega
        rw [harg, ih (i + 1) (cur + 1) j2]
        rw [List.getElem?_cons_succ, List.take_succ_cons,
          List.countP_cons_of_pos _ _ hc]
        cases hr : rest[j2]? with
        | none => rfl
        | some nm2 =>
          show (if classes nm2 = true
              then some (cur + 1 + (rest.take j2).countP classes)
              else none)
            = if classes nm2 = true
              then some (cur + ((rest.take j2).countP classes + 1))
              else none
          by_cases hc2 : classes nm2 = true
          · rw [if_pos hc2, if_pos hc2]
            congr 1
            omega
          · rw [if_neg hc2, if_neg hc2]
    · rw [hdef, if_neg hc]
      cases j with
      | zero =>
        rw [Nat.add_zero,
          mapDictAux_lookup_le classes rest (i + 1) cur (i + 1) (Nat.le_refl (i + 1)),
          List.getElem?_cons_zero]
        show (none : Option ℕ)
          = if classes nm = true
            then some (cur + ((nm :: rest).take 0).countP classes)
            else none
        rw [if_neg hc]
      | succ j2 =>
        have harg : i + 1 + (j2 + 1) = (i + 1) + 1 + j2 := by omega
        rw [harg, ih (i + 1) cur j2]
        rw [List.getElem?_cons_succ, List.take_succ_cons,
          List.countP_cons_of_neg _ _ (by simp [hc])]

theorem adeClassMap_zero {α : Type} (classes : α → Bool) (names : List α) :
    adeClassMap classes names 0 = 0 := by
  rw [adeClassMap, mapDict,
    mapDictAux_lookup_le classes names 0 1 0 (Nat.le_refl 0)]
  rfl

theorem getD_map_of_zero (f : ℕ → ℕ) (hf : f 0 = 0) (g : List ℕ) (i : ℕ) :
    (g.map f).getD i 0 = f (g.getD i 0) := by
  by_cases hi : i < g.length
  · rw [List.getD_eq_getElem _ _ (by simpa using hi), List.getElem_map,
      List.getD_eq_getElem _ _ hi]
  · rw [List.getD_eq_default _ _ (by simpa using Nat.le_of_not_lt hi),
      List.getD_eq_default _ _ (Nat.le_of_not_lt hi), hf]

/-- C7: the flat-file adapter class map sends grid value v (1-indexed row
in the class-name manifest) to the dense allow-listed id (one more than
the number of allow-listed rows before row v) when the name at row v is in the
class set, and to 0 otherwise; get_raw_data applies this map to every
pixel, so values naming non-allow-listed classes become 0 everywhere. -/
theorem ade_class_map_allowlist {α : Type} (classes : α → Bool) (names : List α)
    (segImgs : List (List ℕ)) (key : ℤ) (v i : ℕ) :
    (adeClassMap classes names v
      = match names[v - 1]? with
        | some nm =>
          if 0 < v ∧ classes nm = true
          then (names.take (v - 1)).countP classes + 1
          else 0
        | none => 0)
    ∧ (((adeGetRawData classes names segImgs key).map Prod.fst).getD []).getD i 0
      = adeClassMap classes names (((pyListGet segImgs key).getD []).getD i 0) := by
  constructor
  · cases v with
    | zero =>
      rw [adeClassMap_zero]
      cases hr : names[(0 : ℕ) - 1]? with
      | none => rfl
      | some nm =>
        have hfalse : ¬ (0 < 0 ∧ classes nm = true) := by
          intro hcon
          exact absurd hcon.1 (by omega)
        show 0 = if 0 < 0 ∧ classes nm = true
          then (names.take (0 - 1)).countP classes + 1 else 0
        rw [if_neg hfalse]
    | succ j =>
      rw [adeClassMap, mapDict]
      have harg : j + 1 = 0 + 1 + j := by omega
      rw [harg, mapDictAux_lookup_add classes names 0 1 j]
      have hsub : 0 + 1 + j - 1 = j := by omega
      rw [hsub]
      cases hr : names[j]? with
      | none => rfl
      | some nm =>
        show (if classes nm = true
            then some (1 + (names.take j).countP classes)
            else none).getD 0
          = if 0 < 0 + 1 + j ∧ classes nm = true
            then (names.take j).countP classes + 1 else 0
        by_cases hc : classes nm = true
        · have htrue : 0 < 0 + 1 + j ∧ classes nm = true := ⟨by omega, hc⟩
          rw [if_pos hc, if_pos htrue, Option.getD_some]
          omega
        · have hfalse : ¬ (0 < 0 + 1 + j ∧ classes nm = true) := by
            intro hcon
            exact absurd hcon.2 hc
          rw [if_neg hc, if_neg hfalse]
          rfl
  · rw [adeGetRawData]
    cases hp : pyListGet segImgs key with
    | none =>
      show (([] : List ℕ).getD i 0)
        = adeClassMap classes names (([] : List ℕ).getD i 0)
      rw [List.getD_nil, adeClassMap_zero]
    | some g =>
      show (g.map (adeClassMap classes names)).getD i 0
        = adeClassMap classes names (g.getD i 0)
      exact getD_map_of_zero (adeClassMap classes names)
        (adeClassMap_zero classes names) g i
